import Mathlib

/-!
Verification of the `spiral/kv` key-value service against its specification.

The development shallowly embeds the Go sources:
* the in-memory storage engine (`package memory`, methods on `memory.Storage`
  backed by a `sync.Map` of `string → kv.Item`, plus the `gcPhase` reaper);
* the redis adapter (`package redis`, methods on `redis.Storage`); the
  external redis client itself is out of scope for the spec (§1), so its
  behaviour is modelled from the spec's backend contract where needed;
* the RPC dispatcher (`rpc.go`, methods on `RpcServer` that index the
  service's `Storages` map by name).

Go machine state is made explicit: a storage heap is a function from keys to
optional items, time is the integer unix timestamp that Go reads from
`time.Now()`, and run-time panics (nil-interface method calls, out-of-range
slice writes) are a distinguished outcome of the dispatcher.
-/

/-- `kv.Item` — the general storage item: key, string value,
TTL in seconds (interface doc: "0 value in TTL means no TTL").
The in-memory engine reuses the TTL field to hold the absolute unix expiry
timestamp once an item is stored. -/
structure Item where
  key : String
  value : String
  ttl : Int
deriving DecidableEq, Repr

/-- `kv.EmptyItem` — the zero value of `kv.Item`, referenced by the redis
driver's `Set` (`if item == kv.EmptyItem`). The definition itself is not under
`src/`; it is Go's zero value of the struct: empty key, empty value, TTL 0. -/
def EmptyItem : Item := { key := "", value := "", ttl := 0 }

/-- The error kinds of the `kv` package (`ErrNoKeys`, `ErrEmptyKey`,
`ErrEmptyItem`, …) plus ad-hoc `errors.New` messages. -/
inductive KvError where
  | noKeys
  | emptyKey
  | emptyItem
  | noConfig
  | badTTL
  | other (msg : String)
deriving DecidableEq, Repr

/-- Go's `strings.TrimSpace`: strip leading and trailing whitespace. Defined
on the character list so that it evaluates by kernel reduction (Lean's own
`String.trim`, by contrast, recurses on byte positions); agrees with Go on
every key used in this development. -/
def trimSpace (s : String) : String :=
  ⟨((s.data.dropWhile Char.isWhitespace).reverse.dropWhile Char.isWhitespace).reverse⟩

/-- Whether an `error`-returning Go call returned a nil error. -/
def Except.isOkB : Except KvError α → Bool
  | .ok _ => true
  | .error _ => false

/-- The in-memory engine's `heap` field (`sync.Map`, `map[string]kv.Item`),
read pointwise. -/
def Memory.Heap : Type := String → Option Item

/-- `sync.Map.Store`: bind `key` to `v`, leaving every other key alone. -/
def Memory.store (heap : Memory.Heap) (key : String) (v : Item) : Memory.Heap :=
  fun k => if k = key then some v else heap k

/-- `sync.Map.Delete`: drop the binding of `key`. -/
def Memory.erase (heap : Memory.Heap) (key : String) : Memory.Heap :=
  fun k => if k = key then none else heap k

/-- The empty heap (`&sync.Map{}`). -/
def Memory.emptyHeap : Memory.Heap := fun _ => none

/-- Loop body of `memory.Storage.Has`: per key, trim-validate
(`strings.TrimSpace`, returning `kv.ErrEmptyKey` on an all-whitespace key) and
record whether `heap.Load(key)` (the untrimmed key) finds an entry. An error
anywhere aborts the whole call. -/
def Memory.hasLoop (heap : Memory.Heap) : List String → Except KvError (List (String × Bool))
  | [] => .ok []
  | k :: ks =>
    if trimSpace k = "" then .error .emptyKey
    else
      match Memory.hasLoop heap ks with
      | .error e => .error e
      | .ok rest => .ok ((k, (heap k).isSome) :: rest)

/-- `memory.Storage.Has`: `ErrNoKeys` when no keys are given, else the
per-key presence map. Presence is raw `heap.Load`; the stored expiry is not
consulted. -/
def Memory.Has (heap : Memory.Heap) (keys : List String) : Except KvError (List (String × Bool)) :=
  if keys = [] then .error .noKeys
  else Memory.hasLoop heap keys

/-- `memory.Storage.Get`: trim-validate the key, then return the entry's
value bytes if `heap.Load(key)` succeeds and `nil` (with a nil error)
otherwise. -/
def Memory.Get (heap : Memory.Heap) (key : String) : Except KvError (Option String) :=
  if trimSpace key = "" then .error .emptyKey
  else .ok ((heap key).map Item.value)

/-- `memory.Storage.MGet`: `ErrNoKeys` on no keys; `ErrEmptyKey` if any key
trims to empty (checked for all keys before any lookup); otherwise the stored
items of the keys present in the heap, in request order, absent keys skipped.
Expiry is not consulted. -/
def Memory.MGet (heap : Memory.Heap) (keys : List String) : Except KvError (List Item) :=
  if keys = [] then .error .noKeys
  else if keys.any (fun k => trimSpace k == "") then .error .emptyKey
  else .ok (keys.filterMap heap)

/-- `memory.Storage.Set`'s per-item normalisation: a positive TTL is turned
into the absolute unix expiry `now + ttl`
(`int(time.Unix(time.Now().Add(time.Second*time.Duration(kvItem.TTL)).Unix(), 0).Unix())`);
any other TTL is stored as `0`. Key and value are copied unchanged. -/
def Memory.normalizeItem (now : Int) (it : Item) : Item :=
  if it.ttl > 0 then { it with ttl := now + it.ttl } else { it with ttl := 0 }

/-- Loop body of `memory.Storage.Set`: `s.heap.Store(kvItem.Key, …)` with the
normalised TTL. -/
def Memory.setStep (now : Int) (h : Memory.Heap) (it : Item) : Memory.Heap :=
  Memory.store h it.key (Memory.normalizeItem now it)

/-- `memory.Storage.Set`: `ErrNoKeys` when the item slice is nil, else store
every item under its key (normalising the TTL), in order. There is no
per-item validation: the zero item is stored under the empty key. -/
def Memory.Set (now : Int) (heap : Memory.Heap) (items : List Item) : Except KvError Memory.Heap :=
  if items = [] then .error .noKeys
  else .ok (items.foldl (Memory.setStep now) heap)

/-- Loop body of `memory.Storage.MExpire`: a key already present gets its TTL
field overwritten with the precomputed absolute expiry `ut`; an absent key is
silently skipped. -/
def Memory.mexpireStep (ut : Int) (h : Memory.Heap) (k : String) : Memory.Heap :=
  match h k with
  | some it => Memory.store h k { it with ttl := ut }
  | none => h

/-- `memory.Storage.MExpire (timeout int, keys ...string)`: error unless a
nonzero timeout and at least one key are given; then, for each key already
present, overwrite its TTL field with the absolute unix expiry
`now + timeout`; absent keys are silently skipped. Keys are not validated. -/
def Memory.MExpire (now : Int) (heap : Memory.Heap) (timeout : Int) (keys : List String) :
    Except KvError Memory.Heap :=
  if timeout = 0 ∨ keys = [] then .error (.other "should set timeout and at least one key")
  else .ok (keys.foldl (Memory.mexpireStep (now + timeout)) heap)

/-- `memory.Storage.TTL`: `ErrNoKeys` on no keys; `ErrEmptyKey` if any key
trims to empty; otherwise a map binding each key present in the heap to the
raw stored `TTL` field (the absolute unix expiry, or `0` for no expiry).
Absent keys are omitted; expiry is not consulted. -/
def Memory.TTL (heap : Memory.Heap) (keys : List String) : Except KvError (List (String × Int)) :=
  if keys = [] then .error .noKeys
  else if keys.any (fun k => trimSpace k == "") then .error .emptyKey
  else .ok (keys.filterMap (fun k => (heap k).map (fun it => (k, it.ttl))))

/-- `memory.Storage.Delete`: `ErrNoKeys` on no keys; `ErrEmptyKey` if any key
trims to empty (all keys validated before any deletion); otherwise delete
every named key. Deleting an absent key is a no-op. -/
def Memory.Delete (heap : Memory.Heap) (keys : List String) : Except KvError Memory.Heap :=
  if keys = [] then .error .noKeys
  else if keys.any (fun k => trimSpace k == "") then .error .emptyKey
  else .ok (keys.foldl Memory.erase heap)

/-- One sweep of `memory.Storage.gcPhase` at unix time `now`: every entry
with `now.Unix() > time.Unix(int64(v.TTL), 0).Unix()` — i.e. `now > v.ttl`
on the raw stored field, with no special case for `ttl = 0` — is deleted. -/
def Memory.gcSweep (now : Int) (heap : Memory.Heap) : Memory.Heap :=
  fun k =>
    match heap k with
    | some it => if now > it.ttl then none else some it
    | none => none

/-- The spec's notion of an entry whose expiry moment has passed at time
`now`: a stored expiry (`ttl ≠ 0`; `0` means "no expiry") strictly in the
past. Stated from the spec's words (§3, §4.2), for comparison with the
code-level definitions above. -/
def specExpired (now : Int) (it : Item) : Bool :=
  it.ttl != 0 && now > it.ttl

/-- The spec's "remaining time until expiry" at time `now` for a stored
absolute expiry (§4.2 `TTL`), in seconds. -/
def specRemaining (now expiry : Int) : Int := expiry - now

/-- Modelled from the spec: the external redis client behind the redis
adapter. §1 makes backend internals external collaborators bound only by the
backend contract (§4.3, §6); expiry is handled natively by redis, so the
model keeps just the key → value map the adapter reads and writes, and the
client reports absence of a key as a nil value with a nil error, per the §4.2
`Get` contract ("absence is not an error"). -/
structure RedisDB where
  data : String → Option String

/-- `redis.Storage.Get`: trim-validate the key, then forward
`s.client.Get(key).Bytes()` — the stored bytes, or nil for an absent key. -/
def Redis.Get (db : RedisDB) (key : String) : Except KvError (Option String) :=
  if trimSpace key = "" then .error .emptyKey
  else .ok (db.data key)

/-- `redis.Storage.MGet`: `ErrNoKeys` on no keys; `ErrEmptyKey` if any key
trims to empty; otherwise forward `s.client.MGet(keys...)`, the per-key
optional values in request order. -/
def Redis.MGet (db : RedisDB) (keys : List String) : Except KvError (List (Option String)) :=
  if keys = [] then .error .noKeys
  else if keys.any (fun k => trimSpace k == "") then .error .emptyKey
  else .ok (keys.map db.data)

/-- Loop body of `redis.Storage.Set`: each item is compared against
`kv.EmptyItem` (`ErrEmptyItem` on the zero item, aborting the loop), then
written through `s.client.Set(item.Key, item.Value, …)`. Items already
written before a failing one stay written. -/
def Redis.setLoop (db : RedisDB) : List Item → Except KvError RedisDB
  | [] => .ok db
  | it :: rest =>
    if it = EmptyItem then .error .emptyItem
    else Redis.setLoop { data := fun k => if k = it.key then some it.value else db.data k } rest

/-- `redis.Storage.Set`: `ErrNoKeys` when the item slice is nil, else the
per-item loop. -/
def Redis.Set (db : RedisDB) (items : List Item) : Except KvError RedisDB :=
  if items = [] then .error .noKeys
  else Redis.setLoop db items

/-- `redis.Storage.MExpire (timeout int, keys ...string)`: error unless a
nonzero timeout and at least one key are given; then `s.client.Expire(key, t)`
per key, with no key validation and no error handling. The native expiry
bookkeeping lives inside the client, so the key → value map is returned
unchanged. -/
def Redis.MExpire (db : RedisDB) (timeout : Int) (keys : List String) :
    Except KvError RedisDB :=
  if timeout = 0 ∨ keys = [] then .error (.other "should set timeout and at least one key")
  else .ok db

/-- The service's registry `Service.Storages` (`map[string]kv.Storage`),
indexed by storage name. The storage instances are modelled by the in-memory
engine, the backend implemented in this repository's core. A name that is not
in the map yields Go's zero value — a nil `kv.Storage` interface. -/
def Registry : Type := String → Option Memory.Heap

/-- Update the registry's binding for one storage name (the post-state of a
write against that storage). -/
def regUpdate (reg : Registry) (name : String) (h : Memory.Heap) : Registry :=
  fun n => if n = name then some h else reg n

/-- Outcome of an RPC handler as seen by the caller: a run-time panic (a
method call on a nil interface, or an out-of-range slice write), a returned
Go error, or a successful reply. -/
inductive RpcOutcome (α : Type) where
  | panic
  | err (e : KvError)
  | ok (a : α)
deriving DecidableEq, Repr

/-- `RpcServer.Has`: decode the keys and storage name, index
`r.svc.Storages[storage]` — a missing name gives a nil interface, and the
`.Has` call on it panics — and otherwise forward to the storage, returning
its error or its map. -/
def RpcServer.Has (reg : Registry) (storage : String) (keys : List String) :
    RpcOutcome (List (String × Bool)) :=
  match reg storage with
  | none => .panic
  | some h =>
    match Memory.Has h keys with
    | .error e => .err e
    | .ok m => .ok m

/-- `RpcServer.Get`: index the registry (nil-interface panic on a missing
name), then call `Get` with `keys[0]` — which itself panics if the request
carried no keys. -/
def RpcServer.Get (reg : Registry) (storage : String) (keys : List String) :
    RpcOutcome (Option String) :=
  match reg storage with
  | none => .panic
  | some h =>
    match keys with
    | [] => .panic
    | k :: _ =>
      match Memory.Get h k with
      | .error e => .err e
      | .ok v => .ok v

/-- The decoded `SetData` request of `RpcServer.Set`: an item batch and the
target storage names. -/
structure SetData where
  items : List Item
  storages : List String

/-- Go `items[i] = v` on a slice: in range, replace; out of range, a
run-time panic (`none`). -/
def sliceAssign (xs : List Item) (i : Nat) (v : Item) : Option (List Item) :=
  if i < xs.length then some (xs.set i v) else none

/-- The decode loop of `RpcServer.Set`: `items := make([]Item, 0, n)` creates
a slice of length 0, and each decoded item is written with `items[i] = itc`
— an indexed write into the zero-length slice, not an append. -/
def RpcServer.copyLoop (acc : List Item) (i : Nat) : List Item → Option (List Item)
  | [] => some acc
  | itc :: rest =>
    match sliceAssign acc i itc with
    | none => none
    | some acc2 => RpcServer.copyLoop acc2 (i + 1) rest

/-- Decoding the item batch of a `Set` request: start from the empty slice
and run the indexed-write loop over the wire items. -/
def RpcServer.decodeItems (src : List Item) : Option (List Item) :=
  RpcServer.copyLoop [] 0 src

/-- The fan-out of `RpcServer.Set` over the named storages (an
`errgroup.Group`): every launched call runs to completion, the first error is
the one returned by `Wait`, writes on storages that succeeded are kept, and a
missing storage name panics on the nil interface. Modelled sequentially in
launch order. -/
def RpcServer.fanout (now : Int) (reg : Registry) (items : List Item) :
    List String → RpcOutcome Registry
  | [] => .ok reg
  | s :: rest =>
    match reg s with
    | none => .panic
    | some h =>
      match Memory.Set now h items with
      | .ok h2 => RpcServer.fanout now (regUpdate reg s h2) items rest
      | .error e =>
        match RpcServer.fanout now reg items rest with
        | .panic => .panic
        | _ => .err e

/-- `RpcServer.Set`: decode the item batch (the indexed-write decode loop
panics on any request with at least one item), then fan the batch out over
the named storages. -/
def RpcServer.Set (now : Int) (reg : Registry) (req : SetData) : RpcOutcome Registry :=
  match RpcServer.decodeItems req.items with
  | none => .panic
  | some items => RpcServer.fanout now reg items req.storages

/-!
### Helper definitions for concrete evaluations
-/

/-- Read a key out of the heap returned by a storage call; a failed call has
no heap to read. -/
def heapAfter (r : Except KvError Memory.Heap) (k : String) : Option Item :=
  match r with
  | .ok h => h k
  | .error _ => none

/-- A one-entry heap holding an item whose stored expiry (unix time 5) lies
in the past of the evaluation times used below. -/
def expHeap : Memory.Heap :=
  fun k => if k = "k" then some { key := "k", value := "v", ttl := 5 } else none

/-- A one-entry heap holding an item with stored absolute expiry 100. -/
def ttlHeap : Memory.Heap :=
  fun k => if k = "k" then some { key := "k", value := "v", ttl := 100 } else none

/-- A registry with a single storage named `mem`, holding an empty in-memory
heap. -/
def reg1 : Registry :=
  fun n => if n = "mem" then some Memory.emptyHeap else none

/-- An empty redis database. -/
def db0 : RedisDB := { data := fun _ => none }

/-!
### Helper lemmas
-/

/-- A successful `hasLoop` binds every listed key to raw heap presence. -/
theorem Memory.hasLoop_ok (heap : Memory.Heap) :
    ∀ (keys : List String) (m : List (String × Bool)),
      Memory.hasLoop heap keys = .ok m → ∀ k b, (k, b) ∈ m → b = (heap k).isSome := by
  intro keys
  induction keys with
  | nil =>
      intro m hm k b hkb
      simp only [Memory.hasLoop, Except.ok.injEq] at hm
      subst hm
      cases hkb
  | cons x xs ih =>
      intro m hm k b hkb
      simp only [Memory.hasLoop] at hm
      by_cases hx : trimSpace x = ""
      · simp [hx] at hm
      · rw [if_neg hx] at hm
        cases hrec : Memory.hasLoop heap xs with
        | error e => rw [hrec] at hm; cases hm
        | ok rest =>
            rw [hrec] at hm
            simp only [Except.ok.injEq] at hm
            subst hm
            rcases List.mem_cons.mp hkb with heq | hmem
            · injection heq with h1 h2
              subst h1
              subst h2
              rfl
            · exact ih rest hrec k b hmem

/-- `hasLoop` fails with `ErrEmptyKey` as soon as some key trims to empty. -/
theorem Memory.hasLoop_error_of_mem_empty (heap : Memory.Heap) :
    ∀ (keys : List String), (∃ k ∈ keys, trimSpace k = "") →
      Memory.hasLoop heap keys = .error .emptyKey := by
  intro keys
  induction keys with
  | nil => rintro ⟨k, hk, _⟩; cases hk
  | cons x xs ih =>
      rintro ⟨k, hk, he⟩
      simp only [Memory.hasLoop]
      by_cases hx : trimSpace x = ""
      · simp [hx]
      · rw [if_neg hx]
        have hks : k ∈ xs := by
          rcases List.mem_cons.mp hk with rfl | h
          · exact absurd he hx
          · exact h
        rw [ih ⟨k, hks, he⟩]

/-- The length of `filterMap f` is the number of elements on which `f`
succeeds. -/
theorem length_filterMap_eq_length_filter_isSome (f : α → Option β) :
    ∀ (l : List α), (l.filterMap f).length = (l.filter (fun a => (f a).isSome)).length := by
  intro l
  induction l with
  | nil => rfl
  | cons x xs ih =>
      cases hx : f x with
      | none => simp [List.filterMap_cons, List.filter_cons, hx, ih]
      | some b => simp [List.filterMap_cons, List.filter_cons, hx, ih]

/-- Folding the `Set` loop over items none of which is keyed `k` leaves the
binding of `k` alone. -/
theorem Memory.foldl_setStep_frame (now : Int) (k : String) :
    ∀ (items : List Item) (heap : Memory.Heap), (∀ it ∈ items, it.key ≠ k) →
      items.foldl (Memory.setStep now) heap k = heap k := by
  intro items
  induction items with
  | nil => intro heap _; rfl
  | cons x xs ih =>
      intro heap hk
      have hx : x.key ≠ k := hk x (List.mem_cons_self x xs)
      have hxs : ∀ it ∈ xs, it.key ≠ k := fun it hit => hk it (List.mem_cons_of_mem x hit)
      rw [List.foldl_cons, ih _ hxs]
      simp only [Memory.setStep, Memory.store]
      rw [if_neg (fun h => hx h.symm)]

/-- Folding the `MExpire` loop over keys other than `k` leaves the binding of
`k` alone. -/
theorem Memory.foldl_mexpireStep_frame (ut : Int) (k : String) :
    ∀ (keys : List String) (heap : Memory.Heap), k ∉ keys →
      keys.foldl (Memory.mexpireStep ut) heap k = heap k := by
  intro keys
  induction keys with
  | nil => intro heap _; rfl
  | cons x xs ih =>
      intro heap hk
      have hx : k ≠ x := fun h => hk (h ▸ List.mem_cons_self x xs)
      have hxs : k ∉ xs := fun h => hk (List.mem_cons_of_mem x h)
      rw [List.foldl_cons, ih _ hxs]
      simp only [Memory.mexpireStep]
      cases heap x with
      | none => rfl
      | some it => simp only [Memory.store]; rw [if_neg hx]

/-- Folding `Delete`'s `sync.Map.Delete` over keys other than `k` leaves the
binding of `k` alone. -/
theorem Memory.foldl_erase_frame (k : String) :
    ∀ (keys : List String) (heap : Memory.Heap), k ∉ keys →
      keys.foldl Memory.erase heap k = heap k := by
  intro keys
  induction keys with
  | nil => intro heap _; rfl
  | cons x xs ih =>
      intro heap hk
      have hx : k ≠ x := fun h => hk (h ▸ List.mem_cons_self x xs)
      have hxs : k ∉ xs := fun h => hk (List.mem_cons_of_mem x h)
      rw [List.foldl_cons, ih _ hxs]
      simp only [Memory.erase]
      rw [if_neg hx]

/-!
### Claim theorems
-/

/-- The heap after `Set`ting, at unix time 50, a single item with no expiry
(`TTL: ""` at the RPC layer decodes to `TTL = 0`; the interface documents "0
value in TTL means no TTL"). -/
def c1heap : Memory.Heap :=
  fun k => heapAfter (Memory.Set 50 Memory.emptyHeap [{ key := "k", value := "v", ttl := 0 }]) k

/-- C1. An item stored by `Set` with no expiry is in the heap, yet the very
first reaper sweep (here at unix time 100) deletes it — `gcPhase` evicts any
entry with `now > TTL`, and a no-expiry entry stores `TTL = 0` — after which
`Has` reports the key as absent. The entry does not survive a single reaper
interval, contradicting the claim (and the interface's own TTL doc). -/
theorem c1_reaper_evicts_no_expiry_entry :
    c1heap "k" = some { key := "k", value := "v", ttl := 0 } ∧
    Memory.gcSweep 100 c1heap "k" = none ∧
    Memory.Has (Memory.gcSweep 100 c1heap) ["k"] = .ok [("k", false)] :=
  ⟨rfl, rfl, rfl⟩

/-- C2, counterexample. An RPC `Has` request naming a storage absent from the
registry does not return a routing error: indexing `Storages` yields the nil
interface and the method call on it panics. -/
theorem c2_unknown_storage_panics_cex :
    RpcServer.Has reg1 "missing" ["k"] = .panic := rfl

/-- C2, amended. For every registry, storage name not bound in it, and key
list, the dispatcher's `Has` and `Get` panic on the nil interface; no storage
operation is invoked and no error value is returned to the caller. -/
theorem c2_unknown_storage_dispatch_panics (reg : Registry) (storage : String)
    (keys : List String) (h : reg storage = none) :
    RpcServer.Has reg storage keys = .panic ∧ RpcServer.Get reg storage keys = .panic := by
  constructor
  · simp only [RpcServer.Has, h]
  · simp only [RpcServer.Get, h]

/-- Witness for C2's amended theorem at a concrete registry and name. -/
theorem c2_unknown_storage_dispatch_panics_witness :
    RpcServer.Has reg1 "nope" ["k"] = .panic ∧ RpcServer.Get reg1 "nope" ["k"] = .panic :=
  c2_unknown_storage_dispatch_panics reg1 "nope" ["k"] rfl

/-- C3. An RPC `Set` request with a one-item batch and one (present) target
storage panics: the handler allocates `items := make([]Item, 0, n)` and then
writes `items[i] = itc`, an out-of-range write into the zero-length slice, so
no batch is ever delivered to any storage. -/
theorem c3_rpc_set_panics_on_nonempty_batch :
    RpcServer.Set 100 reg1
      { items := [{ key := "k", value := "v", ttl := 0 }], storages := ["mem"] } = .panic := rfl

/-- The result of the in-memory `Set` on a batch holding only the zero-value
item. -/
def memSetZero : Except KvError Memory.Heap :=
  Memory.Set 100 Memory.emptyHeap [EmptyItem]

/-- C9. The redis driver rejects the zero-value item with `ErrEmptyItem`, but
the in-memory `Set` has no such check: it reports no error and stores the
zero item under the empty key. -/
theorem c9_memory_set_stores_zero_item :
    Redis.Set db0 [EmptyItem] = .error .emptyItem ∧
    memSetZero.isOkB = true ∧
    heapAfter memSetZero "" = some EmptyItem :=
  ⟨rfl, rfl, rfl⟩

/-- C4, counterexample. A key whose stored expiry (unix time 5) has passed at
time 10 but which the reaper has not yet evicted is reported `true` by the
in-memory `Has`, which checks raw heap presence only. -/
theorem c4_has_true_for_expired_entry_cex :
    Memory.Has expHeap ["k"] = .ok [("k", true)] ∧
    specExpired 10 { key := "k", value := "v", ttl := 5 } = true :=
  ⟨rfl, rfl⟩

/-- C4, amended. A successful in-memory `Has` binds each key to raw heap
presence: `true` iff an entry is in the heap — expired or not — and `false`
for a key never set (or already evicted). -/
theorem c4_has_reports_heap_presence (heap : Memory.Heap) (keys : List String)
    (m : List (String × Bool)) (h : Memory.Has heap keys = .ok m) :
    ∀ k b, (k, b) ∈ m → b = (heap k).isSome := by
  have hne : keys ≠ [] := by
    rintro rfl
    simp [Memory.Has] at h
  simp only [Memory.Has] at h
  rw [if_neg hne] at h
  exact Memory.hasLoop_ok heap keys m h

/-- Witness for C4's amended theorem: on the concrete heap, the present
(expired) key reads back `true`. -/
theorem c4_has_reports_heap_presence_witness :
    true = (expHeap "k").isSome :=
  c4_has_reports_heap_presence expHeap ["k", "z"] [("k", true), ("z", false)] rfl "k" true
    (List.Mem.head _)

/-- C5, counterexample. The in-memory `TTL` returns the raw stored expiry
timestamp (100), not the remaining seconds (60 at time 40); and it does not
omit a key whose expiry has already passed (stored expiry 5 read at
time 10). -/
theorem c5_ttl_returns_absolute_not_remaining_cex :
    Memory.TTL ttlHeap ["k"] = .ok [("k", 100)] ∧
    specRemaining 40 100 = 60 ∧ (100 : Int) ≠ 60 ∧
    Memory.TTL expHeap ["k"] = .ok [("k", 5)] ∧
    specExpired 10 { key := "k", value := "v", ttl := 5 } = true :=
  ⟨rfl, rfl, by decide, rfl, rfl⟩

/-- C5, amended. A successful in-memory `TTL` binds keys to the raw stored
TTL field (the absolute unix expiry, or 0 for no expiry), covers every
requested key present in the heap — expired or not — and omits only keys
absent from the heap. -/
theorem c5_ttl_reports_raw_stored_ttl (heap : Memory.Heap) (keys : List String)
    (m : List (String × Int)) (h : Memory.TTL heap keys = .ok m) :
    (∀ p ∈ m, ∃ it, heap p.1 = some it ∧ p.2 = it.ttl) ∧
    (∀ k ∈ keys, (heap k).isSome → ∃ p ∈ m, p.1 = k) := by
  have hne : keys ≠ [] := by
    rintro rfl
    simp [Memory.TTL] at h
  simp only [Memory.TTL] at h
  rw [if_neg hne] at h
  by_cases ha : keys.any (fun k => trimSpace k == "") = true
  · rw [if_pos ha] at h
    cases h
  · rw [if_neg ha] at h
    injection h with h
    subst h
    constructor
    · intro p hp
      obtain ⟨k, hk, hfk⟩ := List.mem_filterMap.mp hp
      cases hheap : heap k with
      | none => rw [hheap] at hfk; cases hfk
      | some it =>
          rw [hheap] at hfk
          have hpe : (k, it.ttl) = p := by simpa using hfk
          subst hpe
          exact ⟨it, hheap, rfl⟩
    · intro k hk hsome
      obtain ⟨it, hit⟩ := Option.isSome_iff_exists.mp hsome
      refine ⟨(k, it.ttl), List.mem_filterMap.mpr ⟨k, hk, ?_⟩, rfl⟩
      rw [hit]
      rfl

/-- Witness for C5's amended theorem: the concrete heap really binds `"k"` to
an item whose stored TTL field is the reported 100. -/
theorem c5_ttl_reports_raw_stored_ttl_witness :
    ∃ it, ttlHeap "k" = some it ∧ (100 : Int) = it.ttl :=
  (c5_ttl_reports_raw_stored_ttl ttlHeap ["k"] [("k", 100)] rfl).1 ("k", 100)
    (List.Mem.head _)

/-- C6. On both backends in the sources, `Get` of a valid key with no stored
entry returns a nil value and a nil error — absence is distinguishable from
an error. (The redis adapter forwards its external client, modelled from the
spec's backend contract.) -/
theorem c6_get_absent_is_nil_no_error (heap : Memory.Heap) (db : RedisDB) (key : String)
    (hk : trimSpace key ≠ "") (hm : heap key = none) (hr : db.data key = none) :
    Memory.Get heap key = .ok none ∧ Redis.Get db key = .ok none := by
  constructor
  · simp only [Memory.Get]
    rw [if_neg hk, hm]
    rfl
  · simp only [Redis.Get]
    rw [if_neg hk, hr]

/-- Witness for C6 at a concrete absent key on both empty backends. -/
theorem c6_get_absent_is_nil_no_error_witness :
    Memory.Get Memory.emptyHeap "k" = .ok none ∧ Redis.Get db0 "k" = .ok none :=
  c6_get_absent_is_nil_no_error Memory.emptyHeap db0 "k" (by decide) rfl rfl

/-- C7, counterexample. The in-memory `MGet` returns the value of a key whose
stored expiry (unix time 5) has passed at time 10 but which the reaper has
not yet evicted, instead of omitting it. -/
theorem c7_mget_includes_expired_entry_cex :
    Memory.MGet expHeap ["k"] = .ok [{ key := "k", value := "v", ttl := 5 }] ∧
    specExpired 10 { key := "k", value := "v", ttl := 5 } = true :=
  ⟨rfl, rfl⟩

/-- C7, amended. A successful in-memory `MGet` returns exactly the stored
items of the requested keys present in the heap — expired or not — in
request order: the result length equals the number of present keys and is at
most the number requested, and every returned item is stored under some
requested key. -/
theorem c7_mget_present_keys (heap : Memory.Heap) (keys : List String)
    (vs : List Item) (h : Memory.MGet heap keys = .ok vs) :
    vs.length ≤ keys.length ∧
    vs.length = (keys.filter (fun k => (heap k).isSome)).length ∧
    ∀ it ∈ vs, ∃ k ∈ keys, heap k = some it := by
  have hne : keys ≠ [] := by
    rintro rfl
    simp [Memory.MGet] at h
  simp only [Memory.MGet] at h
  rw [if_neg hne] at h
  by_cases ha : keys.any (fun k => trimSpace k == "") = true
  · rw [if_pos ha] at h
    cases h
  · rw [if_neg ha] at h
    injection h with h
    subst h
    refine ⟨List.length_filterMap_le heap keys,
      length_filterMap_eq_length_filter_isSome heap keys, ?_⟩
    intro it hit
    exact List.mem_filterMap.mp hit

/-- Witness for C7's amended theorem: one of two requested keys is present,
and the result indeed has length 1 ≤ 2. -/
theorem c7_mget_present_keys_witness :
    ([{ key := "k", value := "v", ttl := 5 }] : List Item).length ≤
      (["k", "z"] : List String).length :=
  (c7_mget_present_keys expHeap ["k", "z"] [{ key := "k", value := "v", ttl := 5 }] rfl).1

/-- C8, counterexample. `MExpire` accepts an empty key without any empty-key
error, on the in-memory engine and on the redis adapter alike (the empty key
is silently ignored, the call succeeds, and other entries are untouched). -/
theorem c8_mexpire_accepts_empty_key_cex :
    (Memory.MExpire 100 Memory.emptyHeap 5 [""]).isOkB = true ∧
    (Redis.MExpire db0 5 [""]).isOkB = true ∧
    heapAfter (Memory.MExpire 100 expHeap 5 [""]) "k" =
      some { key := "k", value := "v", ttl := 5 } :=
  ⟨rfl, rfl, rfl⟩

/-- C8, amended. `Has`, `Get`, `MGet`, `TTL` and `Delete` reject a key that
is empty or whitespace-only with `ErrEmptyKey` before touching the heap, but
`MExpire` performs no per-key validation: with a nonzero timeout it succeeds,
silently ignoring empty keys. -/
theorem c8_key_validation_amended (heap : Memory.Heap) (keys : List String) (key k0 : String)
    (now t : Int) (hk0 : k0 ∈ keys) (he : trimSpace k0 = "") (hkey : trimSpace key = "")
    (ht : t ≠ 0) :
    Memory.Has heap keys = .error .emptyKey ∧
    Memory.Get heap key = .error .emptyKey ∧
    Memory.MGet heap keys = .error .emptyKey ∧
    Memory.TTL heap keys = .error .emptyKey ∧
    Memory.Delete heap keys = .error .emptyKey ∧
    (Memory.MExpire now heap t keys).isOkB = true := by
  have hne : keys ≠ [] := List.ne_nil_of_mem hk0
  have ha : keys.any (fun k => trimSpace k == "") = true :=
    List.any_eq_true.mpr ⟨k0, hk0, by simp [he]⟩
  refine ⟨?_, ?_, ?_, ?_, ?_, ?_⟩
  · simp only [Memory.Has]
    rw [if_neg hne]
    exact Memory.hasLoop_error_of_mem_empty heap keys ⟨k0, hk0, he⟩
  · simp only [Memory.Get]
    rw [if_pos hkey]
  · simp only [Memory.MGet]
    rw [if_neg hne, if_pos ha]
  · simp only [Memory.TTL]
    rw [if_neg hne, if_pos ha]
  · simp only [Memory.Delete]
    rw [if_neg hne, if_pos ha]
  · simp only [Memory.MExpire]
    rw [if_neg (not_or.mpr ⟨ht, hne⟩)]
    rfl

/-- Witness for C8's amended theorem at concrete arguments with a
whitespace-only key. -/
theorem c8_key_validation_amended_witness :
    Memory.Has Memory.emptyHeap ["a", " "] = .error .emptyKey ∧
    Memory.Get Memory.emptyHeap " " = .error .emptyKey ∧
    Memory.MGet Memory.emptyHeap ["a", " "] = .error .emptyKey ∧
    Memory.TTL Memory.emptyHeap ["a", " "] = .error .emptyKey ∧
    Memory.Delete Memory.emptyHeap ["a", " "] = .error .emptyKey ∧
    (Memory.MExpire 100 Memory.emptyHeap 5 ["a", " "]).isOkB = true :=
  c8_key_validation_amended Memory.emptyHeap ["a", " "] " " " " 100 5 (by decide) (by decide)
    (by decide) (by decide)

/-- C10. Frame property of the in-memory engine: a successful `Set`,
`MExpire` or `Delete` leaves the entry of every key not named in the call's
arguments unchanged (and a failing call returns an error without producing
any heap at all). -/
theorem c10_frame_unnamed_keys_unchanged (now t : Int) (heap : Memory.Heap)
    (items : List Item) (keys : List String) (k : String)
    (hik : ∀ it ∈ items, it.key ≠ k) (hkk : k ∉ keys) :
    (∀ h2, Memory.Set now heap items = .ok h2 → h2 k = heap k) ∧
    (∀ h2, Memory.MExpire now heap t keys = .ok h2 → h2 k = heap k) ∧
    (∀ h2, Memory.Delete heap keys = .ok h2 → h2 k = heap k) := by
  refine ⟨?_, ?_, ?_⟩
  · intro h2 h
    simp only [Memory.Set] at h
    by_cases hi : items = []
    · rw [if_pos hi] at h
      cases h
    · rw [if_neg hi] at h
      injection h with h
      subst h
      exact Memory.foldl_setStep_frame now k items heap hik
  · intro h2 h
    simp only [Memory.MExpire] at h
    by_cases hc : t = 0 ∨ keys = []
    · rw [if_pos hc] at h
      cases h
    · rw [if_neg hc] at h
      injection h with h
      subst h
      exact Memory.foldl_mexpireStep_frame (now + t) k keys heap hkk
  · intro h2 h
    simp only [Memory.Delete] at h
    by_cases hk1 : keys = []
    · rw [if_pos hk1] at h
      cases h
    · rw [if_neg hk1] at h
      by_cases ha : keys.any (fun x => trimSpace x == "") = true
      · rw [if_pos ha] at h
        cases h
      · rw [if_neg ha] at h
        injection h with h
        subst h
        exact Memory.foldl_erase_frame k keys heap hkk

/-- Witness for C10: a `Set` of an unrelated key leaves the concrete heap's
binding of `"k"` unchanged. -/
theorem c10_frame_unnamed_keys_unchanged_witness :
    heapAfter (Memory.Set 100 expHeap [{ key := "a", value := "x", ttl := 0 }]) "k" =
      expHeap "k" :=
  (c10_frame_unnamed_keys_unchanged 100 5 expHeap [{ key := "a", value := "x", ttl := 0 }]
    ["b"] "k" (by decide) (by decide)).1 _ rfl
